import Mathlib

/-!
Verification of the duplicate-detection and conflict-resolution engine of the
Calibre tools repository, shallowly embedded in Lean 4.

Python strings are modelled as `List Char` (sequences of Unicode code points);
Python dicts of book metadata are modelled as association lists.  The model for
Python str.lower / str.upper and the regex character classes covers the ASCII
fragment the repository exercises (Lean core's `Char.toLower`/`Char.toUpper`
are exactly the ASCII case maps).
-/

set_option maxRecDepth 10000

abbrev PyStr := List Char

/-- ASCII fragment of Python's regex class `\s`: space, tab, newline, carriage
return, vertical tab, form feed. -/
def pyIsSpaceChar (c : Char) : Bool :=
  c = ' ' || c = '\t' || c = '\n' || c = '\r' || c = '\x0b' || c = '\x0c'

/-- ASCII fragment of Python's regex class `\w`: alphanumeric characters plus
the underscore. -/
def pyIsWordChar (c : Char) : Bool :=
  c.isAlphanum || c = '_'

/-- `re.sub(r'[^\w\s]', '', s)`: keep exactly the word and whitespace
characters. -/
def removePunct (l : List Char) : List Char :=
  l.filter (fun c => pyIsWordChar c || pyIsSpaceChar c)

/-- One structural pass implementing `re.sub(r'\s+', ' ', s)`: every maximal
run of whitespace becomes a single space.  `prevSpace` records whether the
previous character was part of a whitespace run. -/
def collapseAux (prevSpace : Bool) : List Char → List Char
  | [] => []
  | c :: cs =>
    if pyIsSpaceChar c then
      (if prevSpace then [] else [' ']) ++ collapseAux true cs
    else
      c :: collapseAux false cs

def collapseWs (l : List Char) : List Char := collapseAux false l

/-- Python `str.strip()`: drop leading and trailing whitespace. -/
def stripChars (l : List Char) : List Char :=
  ((l.dropWhile pyIsSpaceChar).reverse.dropWhile pyIsSpaceChar).reverse

/-- `normalize_string` from calibre_tools/duplicate_finder.py.  `Option.none`
models Python `None`; `if not s` is true exactly for `None` and the empty
string. -/
def normalize_string (s : Option PyStr) : PyStr :=
  match s with
  | Option.none => []
  | some t =>
    if t = [] then []
    else stripChars (collapseWs (removePunct (t.map Char.toLower)))

/-- Code-point lexicographic order on strings, as used by Python `sorted` on
`str`. -/
def listLexLe : List Char → List Char → Bool
  | [], _ => true
  | _ :: _, [] => false
  | a :: as, b :: bs => if a < b then true else if b < a then false else listLexLe as bs

/-- Stable insertion into an ascending-sorted list of strings. -/
def insertSortedStr (x : List Char) : List (List Char) → List (List Char)
  | [] => [x]
  | y :: ys => if listLexLe x y then x :: y :: ys else y :: insertSortedStr x ys

/-- Python `sorted` on a list of strings (ascending code-point order). -/
def sortStrs (l : List (List Char)) : List (List Char) :=
  l.foldr insertSortedStr []

def StrSorted (l : List (List Char)) : Prop :=
  l.Pairwise (fun a b => listLexLe a b = true)

/-! ### Insertion-ordered buckets: the model of `defaultdict(list)` -/

/-- Append `v` to the bucket for key `k`, creating the bucket at the end if the
key is new — exactly `defaultdict(list)[k].append(v)` for an insertion-ordered
dict. -/
def bucketsAdd {α β : Type} [DecidableEq α] (k : α) (v : β) :
    List (α × List β) → List (α × List β)
  | [] => [(k, [v])]
  | (k2, vs) :: rest =>
    if k2 = k then (k2, vs ++ [v]) :: rest else (k2, vs) :: bucketsAdd k v rest

def bucketsInsPairs {α β : Type} [DecidableEq α] :
    List (α × β) → List (α × List β) → List (α × List β)
  | [], acc => acc
  | (k, v) :: ps, acc => bucketsInsPairs ps (bucketsAdd k v acc)

/-- Build the insertion-ordered dict of buckets from a stream of
(key, value) pairs. -/
def bucketsOfPairs {α β : Type} [DecidableEq α] (pairs : List (α × β)) :
    List (α × List β) :=
  bucketsInsPairs pairs []

/-- The contents of the bucket for key `k` (empty if the key is absent). -/
def bucketLookup {α β : Type} [DecidableEq α] (k : α) (groups : List (α × List β)) :
    List β :=
  ((groups.find? (fun p => p.fst = k)).map Prod.snd).getD []

def bucketKeysNodup {α β : Type} (groups : List (α × List β)) : Prop :=
  (groups.map Prod.fst).Nodup

/-! ### Book records (Python dicts) and the three groupers of
calibre_tools/duplicate_finder.py -/

/-- A metadata value in a book dict: a string, a list of strings (authors,
formats), or a string-to-string mapping (identifiers). -/
inductive FieldVal where
  | str (s : PyStr)
  | list (l : List PyStr)
  | dict (d : List (PyStr × PyStr))
deriving DecidableEq

/-- A book is a Python dict from field names to values, modelled as an
association list (first binding wins). -/
abbrev BookDict := List (PyStr × FieldVal)

/-- `field in book` / `book[field]`: the first binding of `f`. -/
def dictGet (b : BookDict) (f : PyStr) : Option FieldVal :=
  (b.find? (fun p => p.fst = f)).map Prod.snd

def titleField : PyStr := "title".data

def authorsField : PyStr := "authors".data

def isbnField : PyStr := "isbn".data

def identifiersField : PyStr := "identifiers".data

/-- One component of the exact-match key tuple.  A missing field contributes
the distinguished `null` placeholder (Python `None`), a list-valued field the
sorted tuple of its normalized elements, a string-valued field its normalized
text.  (A dict-valued field would raise in the Python source; it is modelled
as an opaque key component, which no grouping claim depends on.) -/
inductive KeyPart where
  | null
  | str (s : PyStr)
  | strs (l : List PyStr)
  | dict (d : List (PyStr × PyStr))
deriving DecidableEq

def keyPartOf (b : BookDict) (f : PyStr) : KeyPart :=
  match dictGet b f with
  | Option.none => KeyPart.null
  | some (FieldVal.str s) => KeyPart.str (normalize_string (some s))
  | some (FieldVal.list l) =>
      KeyPart.strs (sortStrs (l.map (fun v => normalize_string (some v))))
  | some (FieldVal.dict d) => KeyPart.dict d

/-- The key tuple of `find_exact_duplicates`. -/
def keyOf (b : BookDict) (fields : List PyStr) : List KeyPart :=
  fields.map (keyPartOf b)

/-- `find_exact_duplicates(books, fields)` from
calibre_tools/duplicate_finder.py: group the books by their normalized key
tuples and keep the groups with more than one member. -/
def find_exact_duplicates (books : List BookDict) (fields : List PyStr) :
    List (List KeyPart × List BookDict) :=
  (bucketsOfPairs (books.map (fun b => (keyOf b fields, b)))).filter
    (fun kg => 1 < kg.snd.length)

/-- `book.get("title", "")`.  A non-string title would raise inside
`normalize_string` in Python; it is modelled as the empty string, which no
claim depends on. -/
def titleStrOf (b : BookDict) : PyStr :=
  match dictGet b titleField with
  | some (FieldVal.str s) => s
  | _ => []

/-- The author bucket key of `find_similar_titles`:
`tuple(sorted(book.get("authors", []))) if isinstance(book.get("authors"), list)
else book.get("authors", "")`.  Note the `sorted` is applied to the RAW author
strings — `normalize_string` is not involved here. -/
inductive AuthorKey where
  | strs (l : List PyStr)
  | str (s : PyStr)
  | dict (d : List (PyStr × PyStr))
deriving DecidableEq

def authorKeyOf (b : BookDict) : AuthorKey :=
  match dictGet b authorsField with
  | some (FieldVal.list l) => AuthorKey.strs (sortStrs l)
  | some (FieldVal.str s) => AuthorKey.str s
  | some (FieldVal.dict d) => AuthorKey.dict d
  | Option.none => AuthorKey.str []

/-- The author buckets of `find_similar_titles` (insertion-ordered dict). -/
def authorBuckets (books : List BookDict) : List (AuthorKey × List BookDict) :=
  bucketsOfPairs (books.map (fun b => (authorKeyOf b, b)))

/-! ### The string-similarity ratio of `difflib.SequenceMatcher`
(Ratcliff–Obershelp), as used by `find_similar_titles`.

Model of CPython's matcher with `isjunk=None` for inputs below the autojunk
threshold (the second string shorter than 200 characters); the titles the
repository compares are far below it.  `find_longest_match` returns, among the
longest common blocks, the one with the lexicographically least pair of start
positions — exactly CPython's tie-break — and the total match count is the sum
of block sizes of the recursive decomposition. -/

def isBlockAt (a b : List Char) (i j k : Nat) : Bool :=
  decide (i + k ≤ a.length) && decide (j + k ≤ b.length) &&
    ((a.drop i).take k == (b.drop j).take k)

/-- The first (lexicographically least by (i, j)) common block of length `k`,
if one exists. -/
def firstBlock (a b : List Char) (k : Nat) : Option (Nat × Nat) :=
  (List.range (a.length + 1)).findSome? (fun i =>
    (List.range (b.length + 1)).findSome? (fun j =>
      if isBlockAt a b i j k then some (i, j) else Option.none))

def longestMatchAux (a b : List Char) : Nat → Nat × Nat × Nat
  | 0 => (0, 0, 0)
  | k + 1 =>
    match firstBlock a b (k + 1) with
    | some (i, j) => (i, j, k + 1)
    | Option.none => longestMatchAux a b k

/-- `find_longest_match` over the whole of `a` and `b`. -/
def longestMatch (a b : List Char) : Nat × Nat × Nat :=
  longestMatchAux a b (min a.length b.length)

/-- Total size of the matching blocks (the recursive Ratcliff–Obershelp
decomposition).  The fuel argument is a termination device only; it starts at
`a.length + b.length`, which dominates every recursion depth. -/
def matchCount : Nat → List Char → List Char → Nat
  | 0, _, _ => 0
  | fuel + 1, a, b =>
    match longestMatch a b with
    | (i, j, k) =>
      if k = 0 then 0
      else matchCount fuel (a.take i) (b.take j) + k +
           matchCount fuel (a.drop (i + k)) (b.drop (j + k))

def matchingTotal (a b : List Char) : Nat :=
  matchCount (a.length + b.length) a b

/-- `SequenceMatcher(None, a, b).ratio()`: `2*M / (len(a)+len(b))`, and 1.0
when both strings are empty (CPython's `_calculate_ratio`). -/
def similarity (a b : List Char) : ℚ :=
  if a.length + b.length = 0 then 1
  else (2 * matchingTotal a b : ℚ) / ((a.length : ℚ) + (b.length : ℚ))

/-- The normalized title used in the pairwise comparison. -/
def normTitle (b : BookDict) : PyStr :=
  normalize_string (some (titleStrOf b))

/-- The inner `for j, book2 in enumerate(author_books)` loop: the books added
to the group anchored at position `i` (skipping `i` itself, pairs with an
empty normalized title, and pairs below the threshold). -/
def similarMatches (abooks : List BookDict) (i : Nat) (b1 : BookDict) (t : ℚ) :
    List BookDict :=
  abooks.enum.filterMap (fun jb =>
    if jb.fst = i then Option.none
    else
      if normTitle b1 = [] ∨ normTitle jb.snd = [] then Option.none
      else if t ≤ similarity (normTitle b1) (normTitle jb.snd) then some jb.snd
      else Option.none)

/-- `find_similar_titles(books, similarity_threshold)` from
calibre_tools/duplicate_finder.py. -/
def find_similar_titles (books : List BookDict) (t : ℚ) :
    List (List BookDict) :=
  (authorBuckets books).foldl (fun acc kb =>
    if kb.snd.length < 2 then acc
    else
      kb.snd.enum.foldl (fun acc2 ib =>
        let group := ib.snd :: similarMatches kb.snd ib.fst ib.snd t
        if 1 < group.length then acc2 ++ [group] else acc2) acc) []

/-! ### `find_isbn_duplicates` -/

/-- Whether `sub` occurs as a contiguous substring (Python `in` on str). -/
def containsSub (sub : List Char) : List Char → Bool
  | [] => sub == []
  | c :: cs => sub.isPrefixOf (c :: cs) || containsSub sub cs

/-- The (isbn-value, book) pairs one book contributes, in source order: first
its direct truthy `isbn` field, then every entry of its `identifiers` mapping
whose lower-cased scheme name contains "isbn" and whose value is truthy. -/
def isbnPairs (b : BookDict) : List (PyStr × BookDict) :=
  (match dictGet b isbnField with
   | some (FieldVal.str s) => if s ≠ [] then [(s, b)] else []
   | _ => []) ++
  (match dictGet b identifiersField with
   | some (FieldVal.dict d) =>
     (d.filter (fun tv =>
        containsSub "isbn".data (tv.fst.map Char.toLower) && tv.snd ≠ [])).map
       (fun tv => (tv.snd, b))
   | _ => [])

/-- `find_isbn_duplicates(books)` from calibre_tools/duplicate_finder.py:
bucket by shared identifier value, keep buckets with more than one entry.
A non-string direct `isbn` value would be an unhashable or exotic dict key in
Python; only string values are modelled, which is the shape the repository
produces. -/
def find_isbn_duplicates (books : List BookDict) :
    List (PyStr × List BookDict) :=
  (bucketsOfPairs (books.flatMap isbnPairs)).filter (fun kg => 1 < kg.snd.length)

/-! ### find_duplicates_sql.py: book rows, the scorer and keeper selection -/

/-- One row of `get_book_details` in find_duplicates_sql.py. -/
structure BookSql where
  id : Nat
  title : PyStr
  authors : PyStr
  timestamp : Option PyStr
  last_modified : Option PyStr
  formats : List PyStr
  isbn : Option PyStr
deriving DecidableEq

/-- Python `a or b` on optional strings: `a` unless it is `None` or empty. -/
def pyOrStr (a b : Option PyStr) : Option PyStr :=
  match a with
  | some s => if s = [] then b else some s
  | Option.none => b

/-- `date_str.replace('T', ' ').split('+')[0]`. -/
def cleanDate (ds : PyStr) : PyStr :=
  (ds.map (fun c => if c = 'T' then ' ' else c)).takeWhile (fun c => c ≠ '+')

/-- `score_book(book, format_priority)` from find_duplicates_sql.py.
`parseDays` abstracts `int(datetime.fromisoformat(s).timestamp() / 86400)`:
it yields the integer day count of a parsable timestamp and `Option.none`
exactly when the Python call raises (the `except: pass`). -/
def score_book (parseDays : PyStr → Option Int) (book : BookSql)
    (format_priority : List PyStr) : Int :=
  let max_format_score : Nat := book.formats.foldl
    (fun m fmt =>
      if format_priority.contains fmt then max m (format_priority.indexOf fmt)
      else m) 0
  let score : Int := (max_format_score : Int) * 1000
  let score : Int := score +
    (match pyOrStr book.last_modified book.timestamp with
     | Option.none => 0
     | some ds =>
       if ds = [] then 0
       else
         match parseDays (cleanDate ds) with
         | some n => n
         | Option.none => 0)
  score + (book.formats.length : Int) * 10

/-- Stable insertion keeping the accumulator sorted by strictly descending
score: the new element goes after every element with an equal or higher
score, matching Python's stable `list.sort(key=..., reverse=True)`. -/
def insertByScore (x : Nat × Int) : List (Nat × Int) → List (Nat × Int)
  | [] => [x]
  | y :: ys => if y.snd < x.snd then x :: y :: ys else y :: insertByScore x ys

def sortByScoreDesc (l : List (Nat × Int)) : List (Nat × Int) :=
  l.foldl (fun acc x => insertByScore x acc) []

/-- `determine_keeper(duplicate_group, books, format_priority)`: score every
book, sort descending, keep the top scorer, delete the rest.  (An empty group
would raise an IndexError in Python; it cannot occur, and is mapped to a
dummy decision.) -/
def determine_keeper (parseDays : PyStr → Option Int) (group : List Nat)
    (books : Nat → BookSql) (format_priority : List PyStr) : Nat × List Nat :=
  let scored := group.map (fun bid => (bid, score_book parseDays (books bid) format_priority))
  match sortByScoreDesc scored with
  | [] => (0, [])
  | k :: rest => (k.fst, rest.map Prod.fst)

/-! ### A concrete day-count model of
`int(datetime.fromisoformat(s).timestamp() / 86400)` (UTC), used to
instantiate `parseDays` on concrete witnesses. -/

def splitAux (sep : Char) : List Char → List Char → List (List Char)
  | [], cur => [cur.reverse]
  | c :: cs, cur =>
    if c = sep then cur.reverse :: splitAux sep cs []
    else splitAux sep cs (c :: cur)

def splitOnChar (sep : Char) (l : List Char) : List (List Char) :=
  splitAux sep l []

def digitsToNat (l : List Char) : Option Nat :=
  if l = [] ∨ ¬ l.all Char.isDigit then Option.none
  else some (l.foldl (fun n c => n * 10 + (c.toNat - 48)) 0)

def isLeapYear (y : Nat) : Bool :=
  y % 4 = 0 && (y % 100 ≠ 0 || y % 400 = 0)

def daysInMonth (leap : Bool) (m : Nat) : Nat :=
  match m with
  | 1 => 31 | 2 => if leap then 29 else 28 | 3 => 31 | 4 => 30
  | 5 => 31 | 6 => 30 | 7 => 31 | 8 => 31
  | 9 => 30 | 10 => 31 | 11 => 30 | 12 => 31
  | _ => 0

/-- Days in the proleptic Gregorian calendar before January 1 of year `y`
(year 1 based, as in Python's `date.toordinal`). -/
def daysBeforeYear (y : Nat) : Nat :=
  let n := y - 1
  n * 365 + n / 4 - n / 100 + n / 400

def daysBeforeMonth (leap : Bool) (m : Nat) : Nat :=
  (List.range (m - 1)).foldl (fun acc i => acc + daysInMonth leap (i + 1)) 0

/-- `date(y, m, d).toordinal()`. -/
def dateOrdinal (y m d : Nat) : Nat :=
  daysBeforeYear y + daysBeforeMonth (isLeapYear y) m + d

/-- `"YYYY-MM-DD"` with the range validation of `datetime.fromisoformat`. -/
def parseDateTriple (l : PyStr) : Option (Nat × Nat × Nat) :=
  match splitOnChar '-' l with
  | [y, m, d] =>
    if y.length = 4 ∧ m.length = 2 ∧ d.length = 2 then
      match digitsToNat y, digitsToNat m, digitsToNat d with
      | some yn, some mn, some dn =>
        if 1 ≤ yn ∧ 1 ≤ mn ∧ mn ≤ 12 ∧ 1 ≤ dn ∧
            dn ≤ daysInMonth (isLeapYear yn) mn then
          some (yn, mn, dn)
        else Option.none
      | _, _, _ => Option.none
    else Option.none
  | _ => Option.none

def parseTwoDigits (l : PyStr) (bound : Nat) : Option Nat :=
  if l.length = 2 then
    match digitsToNat l with
    | some n => if n < bound then some n else Option.none
    | Option.none => Option.none
  else Option.none

/-- `"HH:MM"` or `"HH:MM:SS[.ffffff]"` as a second count.  A sub-second
fraction never moves the truncated day count, so it is validated and
dropped. -/
def parseTimeSecs (l : PyStr) : Option Nat :=
  match splitOnChar ':' l with
  | [h, m] =>
    match parseTwoDigits h 24, parseTwoDigits m 60 with
    | some hn, some mn => some (hn * 3600 + mn * 60)
    | _, _ => Option.none
  | [h, m, s] =>
    match parseTwoDigits h 24, parseTwoDigits m 60 with
    | some hn, some mn =>
      (match splitOnChar '.' s with
       | [ss] => (parseTwoDigits ss 60).map (fun sn => hn * 3600 + mn * 60 + sn)
       | [ss, f] =>
         if f ≠ [] ∧ f.all Char.isDigit then
           (parseTwoDigits ss 60).map (fun sn => hn * 3600 + mn * 60 + sn)
         else Option.none
       | _ => Option.none)
    | _, _ => Option.none
  | _ => Option.none

/-- Python `int(x)`: truncation toward zero, here of `t / 86400` seconds. -/
def truncDays (t : Int) : Int :=
  if 0 ≤ t then Int.ofNat (t.toNat / 86400)
  else - Int.ofNat ((- t).toNat / 86400)

/-- `int(datetime.fromisoformat(s).timestamp() / 86400)` for an offset-free
`"YYYY-MM-DD[ HH:MM[:SS[.ffffff]]]"` string, with the naive datetime read as
UTC.  719163 is `date(1970, 1, 1).toordinal()`. -/
def parseDaysImpl (l : PyStr) : Option Int :=
  match splitOnChar ' ' l with
  | [ds] =>
    (parseDateTriple ds).map (fun ymd =>
      truncDays (((dateOrdinal ymd.fst ymd.snd.fst ymd.snd.snd : Int) - 719163) * 86400))
  | [ds, ts] =>
    match parseDateTriple ds, parseTimeSecs ts with
    | some ymd, some secs =>
      some (truncDays (((dateOrdinal ymd.fst ymd.snd.fst ymd.snd.snd : Int) - 719163) * 86400 + secs))
    | _, _ => Option.none
  | _ => Option.none

/-! ### The deletion executor: `delete_book`, `log_deletion` and the run loop
of `main` in find_duplicates_sql.py.

Observable external effects are collected in an event trace: one event per
external `calibredb remove` invocation (with its outcome) and one per entry
written to the recovery log file at the end of the run.  Console output does
not mutate anything and is not modelled. -/

/-- Outcome of one attempted external `calibredb remove` call:
`some rc` is a completed subprocess with return code `rc`, `Option.none` an
exception raised during the attempt. -/
abbrev ExtOutcome := Option Int

def extSuccess (r : ExtOutcome) : Bool :=
  match r with
  | some rc => rc = 0
  | Option.none => false

/-- `delete_book(book_id, library_path, dry_run)`.  Returns
(reported success, whether the external mutating command was issued).
Under `dry_run` it returns success immediately and never reaches the
subprocess call. -/
def delete_book (dry_run : Bool) (ext : ExtOutcome) : Bool × Bool :=
  if dry_run then (true, false)
  else (extSuccess ext, true)

/-- The fields `log_deletion` writes for one deleted book. -/
structure LogEntry where
  id : Nat
  title : PyStr
  authors : PyStr
  formats : List PyStr
  isbn : Option PyStr
  timestamp : Option PyStr
  last_modified : Option PyStr
deriving DecidableEq

/-- `log_deletion(book, log_file)`: the appended recovery entry is the
pre-deletion snapshot of the book row. -/
def log_deletion (b : BookSql) : LogEntry :=
  ⟨b.id, b.title, b.authors, b.formats, b.isbn, b.timestamp, b.last_modified⟩

/-- Externally observable events of a run. -/
inductive Event where
  | deleteCall (id : Nat) (ok : Bool)
  | logWrite (e : LogEntry)
deriving DecidableEq

/-- The command-line mode flags. -/
structure Args where
  find_only : Bool
  interactive : Bool
  auto_delete : Bool
  dry_run : Bool

/-- One interactive prompt exchange for a group: `skipAns` models the answer
"s", `noAns c` models "n" followed by a keeper id (`Option.none` for "skip"
or unparsable input), anything else proceeds with the recommendation. -/
inductive PromptAnswer where
  | skipAns
  | noAns (choice : Option Nat)
  | proceed

/-- The `for book_id in to_delete` loop body under `not args.find_only`:
threads the index into the outcome oracle, the event trace and the in-memory
`deletion_log` list. -/
def processDeletes (extrc : Nat → ExtOutcome) (dry_run : Bool) (books : Nat → BookSql) :
    List Nat → Nat → List Event → List BookSql → Nat × List Event × List BookSql
  | [], e, trace, dlog => (e, trace, dlog)
  | bid :: rest, e, trace, dlog =>
    if dry_run then
      processDeletes extrc dry_run books rest e trace dlog
    else
      let r := delete_book false (extrc e)
      let trace := trace ++ [Event.deleteCall bid r.fst]
      let dlog := if r.fst then dlog ++ [books bid] else dlog
      processDeletes extrc dry_run books rest (e + 1) trace dlog

/-- The `for i, group in enumerate(duplicate_groups, 1)` loop of `main`. -/
def processGroups (args : Args) (parseDays : PyStr → Option Int)
    (books : Nat → BookSql) (fp : List PyStr) (extrc : Nat → ExtOutcome)
    (prompts : Nat → PromptAnswer) :
    List (List Nat) → Nat → Nat → List Event → List BookSql →
      List Event × List BookSql
  | [], _, _, trace, dlog => (trace, dlog)
  | g :: gs, p, e, trace, dlog =>
    let kd := determine_keeper parseDays g books fp
    if args.find_only then
      processGroups args parseDays books fp extrc prompts gs p e trace dlog
    else if args.interactive then
      match prompts p with
      | PromptAnswer.skipAns =>
        processGroups args parseDays books fp extrc prompts gs (p + 1) e trace dlog
      | PromptAnswer.noAns Option.none =>
        processGroups args parseDays books fp extrc prompts gs (p + 1) e trace dlog
      | PromptAnswer.noAns (some k) =>
        let st := processDeletes extrc args.dry_run books (g.filter (fun bid => bid ≠ k)) e trace dlog
        processGroups args parseDays books fp extrc prompts gs (p + 1) st.fst st.snd.fst st.snd.snd
      | PromptAnswer.proceed =>
        let st := processDeletes extrc args.dry_run books kd.snd e trace dlog
        processGroups args parseDays books fp extrc prompts gs (p + 1) st.fst st.snd.fst st.snd.snd
    else
      let st := processDeletes extrc args.dry_run books kd.snd e trace dlog
      processGroups args parseDays books fp extrc prompts gs p st.fst st.snd.fst st.snd.snd

/-- The whole mutating phase of `main`: process every duplicate group, then —
only when the in-memory deletion log is non-empty and the run is not a dry
run — append one recovery-log entry per successfully deleted book, in
deletion order. -/
def runMain (args : Args) (parseDays : PyStr → Option Int)
    (books : Nat → BookSql) (fp : List PyStr) (extrc : Nat → ExtOutcome)
    (prompts : Nat → PromptAnswer) (groups : List (List Nat)) : List Event :=
  let st := processGroups args parseDays books fp extrc prompts groups 0 0 [] []
  if st.snd ≠ [] ∧ args.dry_run = false then
    st.fst ++ st.snd.map (fun b => Event.logWrite (log_deletion b))
  else st.fst


/-! ### Specification-side definitions (phrased from the design spec) and
concrete inputs used by witnesses and counterexamples -/

/-- The default format hierarchy of find_duplicates_sql.py (higher index =
higher priority). -/
def DEFAULT_FORMAT_PRIORITY : List PyStr :=
  ["DJVU".data, "AZW3".data, "MOBI".data, "PDF".data, "EPUB".data]

/-- Spec 4.6 `best_rank`: the highest 0-based position in `format_priority`
among the record's formats, 0 when no format is recognized. -/
def bestRank (formats format_priority : List PyStr) : Nat :=
  ((formats.filter (fun f => format_priority.contains f)).map
    (fun f => format_priority.indexOf f)).foldl max 0

/-- Spec 4.6: the effective timestamp — `modified_at`, falling back to
`created_at`. -/
def effectiveTimestamp (book : BookSql) : Option PyStr :=
  pyOrStr book.last_modified book.timestamp

/-- Spec 4.6 `recency_component`: the effective timestamp converted to an
integer day count, 0 for a missing or unparsable timestamp. -/
def recencyComponent (parseDays : PyStr → Option Int) (book : BookSql) : Int :=
  match effectiveTimestamp book with
  | Option.none => 0
  | some ds => if ds = [] then 0 else (parseDays (cleanDate ds)).getD 0

/-- C4 counterexample: the record with the strictly better format (EPUB,
rank 4) but an old modification date. -/
def bookEpubOld : BookSql :=
  ⟨1, [], [], Option.none, some "1970-01-10 00:00:00+00:00".data,
   ["EPUB".data], Option.none⟩

/-- C4 counterexample: the record with the strictly worse format (PDF,
rank 3) but a recent modification date. -/
def bookPdfNew : BookSql :=
  ⟨2, [], [], Option.none, some "2020-01-01 00:00:00+00:00".data,
   ["PDF".data], Option.none⟩

/-- C4 amended witness: like `bookPdfNew` but with a date older than
`bookEpubOld`, so the recency gap favours the better-format record. -/
def bookPdfOld : BookSql :=
  ⟨3, [], [], Option.none, some "1970-01-05 00:00:00+00:00".data,
   ["PDF".data], Option.none⟩

/-- The normalizer exactly as the claim words it: characters that are not
alphanumeric or whitespace are removed (underscore in particular is
dropped). -/
def normalize_claimed (s : Option PyStr) : PyStr :=
  match s with
  | Option.none => []
  | some t =>
    if t = [] then []
    else
      stripChars (collapseWs
        ((t.map Char.toLower).filter (fun c => c.isAlphanum || pyIsSpaceChar c)))

/-- ASCII-only strings (the scope of the upper/lower-case claim). -/
def AsciiStr (s : PyStr) : Prop := ∀ c ∈ s, c.toNat < 128

/-- The author bucket key exactly as the claim words it: the
normalized-author-set (each author normalized, duplicates removed, sorted). -/
def claimedAuthorKey (b : BookDict) : AuthorKey :=
  match dictGet b authorsField with
  | some (FieldVal.list l) =>
      AuthorKey.strs (sortStrs ((l.map (fun v => normalize_string (some v))).dedup))
  | some (FieldVal.str s) => AuthorKey.str (normalize_string (some s))
  | some (FieldVal.dict d) => AuthorKey.dict d
  | Option.none => AuthorKey.str []

/-- The fuzzy grouper as the claim describes it: identical to
`find_similar_titles` except that records are bucketed by
normalized-author-set. -/
def find_similar_titles_claimed (books : List BookDict) (t : ℚ) :
    List (List BookDict) :=
  (bucketsOfPairs (books.map (fun b => (claimedAuthorKey b, b)))).foldl
    (fun acc kb =>
      if kb.snd.length < 2 then acc
      else
        kb.snd.enum.foldl (fun acc2 ib =>
          let group := ib.snd :: similarMatches kb.snd ib.fst ib.snd t
          if 1 < group.length then acc2 ++ [group] else acc2) acc) []

/-- The anchor groups one author bucket emits: for each anchor position `i`,
the anchor record followed by its matches, kept when the group has at least
two members. -/
def bucketAnchorGroups (abooks : List BookDict) (t : ℚ) : List (List BookDict) :=
  abooks.enum.filterMap (fun ib =>
    let group := ib.snd :: similarMatches abooks ib.fst ib.snd t
    if 1 < group.length then some group else Option.none)

/-- C6 counterexample: same author up to normalization ("Tolkien" vs
"tolkien"), same normalized title. -/
def bookTolkienCap : BookDict :=
  [(titleField, FieldVal.str "The Hobbit".data),
   (authorsField, FieldVal.list ["Tolkien".data])]

def bookTolkienLow : BookDict :=
  [(titleField, FieldVal.str "The Hobbit!".data),
   (authorsField, FieldVal.list ["tolkien".data])]

/-- C7 counterexample: one record carrying the same ISBN both in its direct
`isbn` field and in its `identifiers` mapping. -/
def bookDoubleIsbn : BookDict :=
  [(("id".data : PyStr), FieldVal.str "1".data),
   (isbnField, FieldVal.str "123".data),
   (identifiersField, FieldVal.dict [(isbnField, "123".data)])]

/-- C5/C10 witness records. -/
def bookHobbitA : BookDict :=
  [(titleField, FieldVal.str "The Hobbit!!!".data),
   (authorsField, FieldVal.list ["J. R. R. Tolkien".data])]

def bookHobbitB : BookDict :=
  [(titleField, FieldVal.str "the   hobbit".data),
   (authorsField, FieldVal.list ["J R R Tolkien".data])]

/-- C10 witness records: both lack `authors`; `bookNoAuthors2` also carries a
title normalizing to the same text, while `bookEmptyStrAuthors` has a present
`authors` value normalizing to the empty string. -/
def bookNoAuthors1 : BookDict := [(titleField, FieldVal.str "Dune".data)]

def bookNoAuthors2 : BookDict := [(titleField, FieldVal.str "Dune ".data)]

def bookEmptyStrAuthors : BookDict :=
  [(titleField, FieldVal.str "Dune".data), (authorsField, FieldVal.str "!!!".data)]

/-- Spec 4.8: the sequence of external delete calls for a list of delete_ids
starting at outcome-oracle index `i`: one call per id, in order, regardless
of earlier outcomes. -/
def deleteCallsSpec (extrc : Nat → ExtOutcome) : List Nat → Nat → List Event
  | [], _ => []
  | bid :: rest, i =>
    Event.deleteCall bid (extSuccess (extrc i)) :: deleteCallsSpec extrc rest (i + 1)

/-- Spec 4.8: the ids whose delete call succeeded, in call order — exactly
the records that receive a recovery-log entry. -/
def loggedIdsSpec (extrc : Nat → ExtOutcome) : List Nat → Nat → List Nat
  | [], _ => []
  | bid :: rest, i =>
    (if extSuccess (extrc i) then [bid] else []) ++ loggedIdsSpec extrc rest (i + 1)

/-- All delete_ids of a run, concatenated over the groups in order. -/
def allDeleteIds (parseDays : PyStr → Option Int) (books : Nat → BookSql)
    (fp : List PyStr) (groups : List (List Nat)) : List Nat :=
  (groups.map (fun g => (determine_keeper parseDays g books fp).snd)).flatten

/-! ### Supporting lemmas -/

theorem listLexLe_refl (a : List Char) : listLexLe a a = true := by
  induction a with
  | nil => rfl
  | cons c cs ih => simp [listLexLe, ih]

theorem listLexLe_total (a b : List Char) :
    listLexLe a b = true ∨ listLexLe b a = true := by
  induction a generalizing b with
  | nil => exact Or.inl rfl
  | cons c cs ih =>
    cases b with
    | nil => exact Or.inr rfl
    | cons d ds =>
      rcases lt_trichotomy c d with h | h | h
      · left; simp [listLexLe, h]
      · subst h
        rcases ih ds with h2 | h2
        · left; simp [listLexLe, lt_irrefl, h2]
        · right; simp [listLexLe, lt_irrefl, h2]
      · right; simp [listLexLe, h]

theorem listLexLe_antisymm {a b : List Char} (h1 : listLexLe a b = true)
    (h2 : listLexLe b a = true) : a = b := by
  induction a generalizing b with
  | nil =>
    cases b with
    | nil => rfl
    | cons d ds => simp [listLexLe] at h2
  | cons c cs ih =>
    cases b with
    | nil => simp [listLexLe] at h1
    | cons d ds =>
      rcases lt_trichotomy c d with h | h | h
      · simp [listLexLe, h, asymm h] at h2
      · subst h
        simp only [listLexLe, lt_irrefl, if_false] at h1 h2
        rw [ih h1 h2]
      · simp [listLexLe, h, asymm h] at h1

theorem listLexLe_trans {a b c : List Char} (h1 : listLexLe a b = true)
    (h2 : listLexLe b c = true) : listLexLe a c = true := by
  induction a generalizing b c with
  | nil => rfl
  | cons x xs ih =>
    cases b with
    | nil => simp [listLexLe] at h1
    | cons y ys =>
      cases c with
      | nil => simp [listLexLe] at h2
      | cons z zs =>
        rcases lt_trichotomy x y with hxy | hxy | hxy
        · rcases lt_trichotomy y z with hyz | hyz | hyz
          · simp [listLexLe, lt_trans hxy hyz]
          · subst hyz; simp [listLexLe, hxy]
          · simp [listLexLe, hyz, asymm hyz] at h2
        · subst hxy
          rcases lt_trichotomy x z with hyz | hyz | hyz
          · simp [listLexLe, hyz]
          · subst hyz
            simp only [listLexLe, lt_irrefl, if_false] at h1 h2 ⊢
            exact ih h1 h2
          · simp [listLexLe, hyz, asymm hyz] at h2
        · simp [listLexLe, hxy, asymm hxy] at h1

theorem insertSortedStr_perm (x : List Char) (l : List (List Char)) :
    (insertSortedStr x l).Perm (x :: l) := by
  induction l with
  | nil => exact List.Perm.refl _
  | cons y ys ih =>
    by_cases h : listLexLe x y = true
    · simp [insertSortedStr, h]
    · simp only [insertSortedStr, h]
      exact ((ih.cons y).trans (List.Perm.swap x y ys))

theorem sortStrs_perm (l : List (List Char)) : (sortStrs l).Perm l := by
  induction l with
  | nil => exact List.Perm.refl _
  | cons x xs ih =>
    exact (insertSortedStr_perm x (sortStrs xs)).trans (ih.cons x)

theorem insertSortedStr_sorted (x : List Char) {l : List (List Char)}
    (h : StrSorted l) : StrSorted (insertSortedStr x l) := by
  induction l with
  | nil => simp [insertSortedStr, StrSorted]
  | cons y ys ih =>
    rcases List.pairwise_cons.mp h with ⟨hy, hys⟩
    by_cases hxy : listLexLe x y = true
    · simp only [insertSortedStr, hxy, if_true]
      refine List.pairwise_cons.mpr ⟨?_, h⟩
      intro b hb
      rcases List.mem_cons.mp hb with rfl | hb
      · exact hxy
      · exact listLexLe_trans hxy (hy b hb)
    · simp only [insertSortedStr, hxy, if_false]
      refine List.pairwise_cons.mpr ⟨?_, ih hys⟩
      intro b hb
      have hperm := insertSortedStr_perm x ys
      rcases List.mem_cons.mp (hperm.mem_iff.mp hb) with rfl | hb2
      · rcases listLexLe_total y b with h2 | h2
        · exact h2
        · exact absurd h2 hxy
      · exact hy b hb2

theorem sortStrs_sorted (l : List (List Char)) : StrSorted (sortStrs l) := by
  induction l with
  | nil => simp [sortStrs, StrSorted]
  | cons x xs ih => exact insertSortedStr_sorted x ih

/-- Sorting is invariant under permutation of the input: sorting is a
canonical form for the multiset of elements. -/
theorem sortStrs_perm_invariant {l₁ l₂ : List (List Char)} (h : l₁.Perm l₂) :
    sortStrs l₁ = sortStrs l₂ := by
  haveI : IsAntisymm (List Char) (fun a b => listLexLe a b = true) :=
    ⟨fun _ _ h1 h2 => listLexLe_antisymm h1 h2⟩
  exact List.eq_of_perm_of_sorted
    ((sortStrs_perm l₁).trans (h.trans (sortStrs_perm l₂).symm))
    (sortStrs_sorted l₁) (sortStrs_sorted l₂)

theorem bucketLookup_cons {α β : Type} [DecidableEq α] (k k2 : α) (vs : List β)
    (rest : List (α × List β)) :
    bucketLookup k ((k2, vs) :: rest) = if k2 = k then vs else bucketLookup k rest := by
  by_cases h : k2 = k <;> simp [bucketLookup, List.find?, h]

theorem bucketLookup_bucketsAdd {α β : Type} [DecidableEq α] (k k2 : α) (v : β)
    (acc : List (α × List β)) :
    bucketLookup k (bucketsAdd k2 v acc) =
      if k2 = k then bucketLookup k acc ++ [v] else bucketLookup k acc := by
  induction acc with
  | nil =>
    by_cases h : k2 = k <;>
      simp [bucketsAdd, bucketLookup_cons, bucketLookup, List.find?, h]
  | cons p rest ih =>
    obtain ⟨k3, vs⟩ := p
    by_cases h3 : k3 = k2
    · subst h3
      by_cases h : k3 = k
      · subst h
        simp [bucketsAdd, bucketLookup_cons]
      · simp [bucketsAdd, bucketLookup_cons, h]
    · simp only [bucketsAdd, if_neg h3]
      by_cases h : k3 = k
      · subst h
        have hk : ¬ k2 = k3 := fun hh => h3 hh.symm
        simp [bucketLookup_cons, hk]
      · simp [bucketLookup_cons, h, ih]

theorem bucketLookup_bucketsInsPairs {α β : Type} [DecidableEq α]
    (ps : List (α × β)) (acc : List (α × List β)) (k : α) :
    bucketLookup k (bucketsInsPairs ps acc) =
      bucketLookup k acc ++ (ps.filter (fun p => p.fst = k)).map Prod.snd := by
  induction ps generalizing acc with
  | nil => simp [bucketsInsPairs]
  | cons p ps ih =>
    obtain ⟨k2, v⟩ := p
    simp only [bucketsInsPairs]
    rw [ih, bucketLookup_bucketsAdd]
    by_cases h : k2 = k
    · simp [h, List.filter]
    · simp [h, List.filter]

/-- The main characterization: looking up key `k` in the bucket dict built
from a pair stream yields exactly the values paired with `k`, in order. -/
theorem bucketLookup_bucketsOfPairs {α β : Type} [DecidableEq α]
    (ps : List (α × β)) (k : α) :
    bucketLookup k (bucketsOfPairs ps) =
      (ps.filter (fun p => p.fst = k)).map Prod.snd := by
  rw [bucketsOfPairs, bucketLookup_bucketsInsPairs]
  simp [bucketLookup]

theorem bucketsAdd_keys_sub {α β : Type} [DecidableEq α] (k : α) (v : β)
    (acc : List (α × List β)) (k2 : α) (h : k2 ∈ (bucketsAdd k v acc).map Prod.fst) :
    k2 ∈ acc.map Prod.fst ∨ k2 = k := by
  induction acc with
  | nil =>
    simp only [bucketsAdd, List.map_cons, List.map_nil, List.mem_singleton] at h
    exact Or.inr h
  | cons p rest ih =>
    obtain ⟨k3, vs⟩ := p
    by_cases h3 : k3 = k
    · simp only [bucketsAdd, if_pos h3, List.map_cons, List.mem_cons] at h
      rcases h with h | h
      · exact Or.inl (List.mem_cons.mpr (Or.inl h))
      · exact Or.inl (List.mem_cons.mpr (Or.inr h))
    · simp only [bucketsAdd, if_neg h3, List.map_cons, List.mem_cons] at h
      rcases h with h | h
      · exact Or.inl (List.mem_cons.mpr (Or.inl h))
      · rcases ih h with h2 | h2
        · exact Or.inl (List.mem_cons.mpr (Or.inr h2))
        · exact Or.inr h2

theorem bucketsAdd_keysNodup {α β : Type} [DecidableEq α] (k : α) (v : β)
    {acc : List (α × List β)} (h : bucketKeysNodup acc) :
    bucketKeysNodup (bucketsAdd k v acc) := by
  induction acc with
  | nil => simp [bucketsAdd, bucketKeysNodup]
  | cons p rest ih =>
    obtain ⟨k3, vs⟩ := p
    rw [bucketKeysNodup, List.map_cons, List.nodup_cons] at h
    obtain ⟨hk3, hrest⟩ := h
    by_cases h3 : k3 = k
    · simp only [bucketsAdd, if_pos h3]
      rw [bucketKeysNodup, List.map_cons, List.nodup_cons]
      exact ⟨hk3, hrest⟩
    · simp only [bucketsAdd, if_neg h3]
      rw [bucketKeysNodup, List.map_cons, List.nodup_cons]
      refine ⟨?_, ih hrest⟩
      intro hmem
      rcases bucketsAdd_keys_sub k v rest k3 hmem with h2 | h2
      · exact hk3 h2
      · exact h3 h2

theorem bucketsInsPairs_keysNodup {α β : Type} [DecidableEq α]
    (ps : List (α × β)) {acc : List (α × List β)} (h : bucketKeysNodup acc) :
    bucketKeysNodup (bucketsInsPairs ps acc) := by
  induction ps generalizing acc with
  | nil => exact h
  | cons p ps ih =>
    obtain ⟨k, v⟩ := p
    exact ih (bucketsAdd_keysNodup k v h)

theorem bucketsOfPairs_keysNodup {α β : Type} [DecidableEq α]
    (ps : List (α × β)) : bucketKeysNodup (bucketsOfPairs ps) :=
  bucketsInsPairs_keysNodup ps (by simp [bucketKeysNodup])

/-- With pairwise-distinct keys, any entry of the dict is determined by
lookup at its key. -/
theorem mem_bucket_eq_lookup {α β : Type} [DecidableEq α]
    {groups : List (α × List β)} (hnd : bucketKeysNodup groups)
    {k : α} {g : List β} (h : (k, g) ∈ groups) : bucketLookup k groups = g := by
  induction groups with
  | nil => simp at h
  | cons p rest ih =>
    obtain ⟨k2, vs⟩ := p
    rw [bucketKeysNodup, List.map_cons, List.nodup_cons] at hnd
    obtain ⟨hk2, hrest⟩ := hnd
    rcases List.mem_cons.mp h with h1 | h1
    · rw [Prod.mk.injEq] at h1
      obtain ⟨h2, h3⟩ := h1
      subst h2
      subst h3
      rw [bucketLookup_cons, if_pos rfl]
    · have hne : ¬ k2 = k := by
        intro he
        subst he
        exact hk2 (by simpa using List.mem_map_of_mem Prod.fst h1)
      rw [bucketLookup_cons, if_neg hne]
      exact ih hrest h1

theorem lookup_mem_buckets {α β : Type} [DecidableEq α]
    {groups : List (α × List β)} {k : α}
    (h : bucketLookup k groups ≠ []) : (k, bucketLookup k groups) ∈ groups := by
  induction groups with
  | nil => simp [bucketLookup, List.find?] at h
  | cons p rest ih =>
    obtain ⟨k2, vs⟩ := p
    by_cases h2 : k2 = k
    · subst h2
      rw [bucketLookup_cons, if_pos rfl] at h ⊢
      exact List.mem_cons.mpr (Or.inl rfl)
    · rw [bucketLookup_cons, if_neg h2] at h ⊢
      exact List.mem_cons_of_mem _ (ih h)

theorem foldl_rank_eq (fp fmts : List PyStr) (init : Nat) :
    fmts.foldl (fun m fmt => if fp.contains fmt then max m (fp.indexOf fmt) else m) init =
      ((fmts.filter (fun f => fp.contains f)).map (fun f => fp.indexOf f)).foldl max init := by
  induction fmts generalizing init with
  | nil => rfl
  | cons f fs ih =>
    by_cases h : fp.contains f
    · simp only [List.foldl_cons, List.filter_cons, h, if_true, List.map_cons]
      exact ih (max init (fp.indexOf f))
    · simp only [List.foldl_cons, List.filter_cons, h, Bool.false_eq_true, if_false]
      exact ih init

/-- The scorer decomposes into the three spec terms. -/
theorem score_book_eq (pd : PyStr → Option Int) (book : BookSql) (fp : List PyStr) :
    score_book pd book fp =
      1000 * (bestRank book.formats fp : Int) + 10 * (book.formats.length : Int) +
        recencyComponent pd book := by
  unfold score_book bestRank recencyComponent effectiveTimestamp
  rw [foldl_rank_eq]
  cases hp : pyOrStr book.last_modified book.timestamp with
  | none => ring
  | some ds =>
    by_cases hds : ds = []
    · simp only [hds, if_true, if_pos rfl]
      ring
    · simp only [if_neg hds]
      cases pd (cleanDate ds) with
      | none => simp only [Option.getD_none]; ring
      | some n => simp only [Option.getD_some]; ring

/-- C3: for every record and format-priority list, `score_book` equals
`1000 * best_rank + 10 * format_count + recency_component`, where `best_rank`
is the highest 0-based index in the priority list among the record's formats
(0 when none is recognized), `format_count` the number of the record's
formats, and `recency_component` the effective timestamp (last_modified,
falling back to timestamp) as an integer day count, with missing or
unparsable timestamps contributing 0; the function is total, so no input
raises. -/
theorem C3_score_decomposition (pd : PyStr → Option Int) (book : BookSql)
    (fp : List PyStr) :
    score_book pd book fp =
      1000 * (bestRank book.formats fp : Int) + 10 * (book.formats.length : Int) +
        recencyComponent pd book :=
  score_book_eq pd book fp

/-- C4 counterexample: `bookEpubOld` has the strictly more-preferred best
format under the default priority list, yet `bookPdfNew` — identical except
for its single format and its timestamp — scores strictly higher, because a
50-year recency gap (18262 day units) dwarfs the 1000-point format step. -/
theorem C4_counterexample :
    bestRank bookPdfNew.formats DEFAULT_FORMAT_PRIORITY <
        bestRank bookEpubOld.formats DEFAULT_FORMAT_PRIORITY ∧
      score_book parseDaysImpl bookEpubOld DEFAULT_FORMAT_PRIORITY <
        score_book parseDaysImpl bookPdfNew DEFAULT_FORMAT_PRIORITY := by
  constructor
  · decide
  · decide

/-- C4 amended: the record with the strictly more-preferred best format
scores strictly higher provided the other record's recency advantage is
less than 1000 day units per rank step — the format term dominates only up
to that bound, not for arbitrary timestamp gaps. -/
theorem C4_format_dominance_amended (pd : PyStr → Option Int) (fp : List PyStr)
    (b1 b2 : BookSql) (hlen : b1.formats.length = b2.formats.length)
    (hrank : bestRank b2.formats fp < bestRank b1.formats fp)
    (hrec : recencyComponent pd b2 - recencyComponent pd b1 <
      1000 * ((bestRank b1.formats fp : Int) - (bestRank b2.formats fp : Int))) :
    score_book pd b2 fp < score_book pd b1 fp := by
  rw [score_book_eq, score_book_eq, hlen]
  omega

theorem C4_format_dominance_amended_witness :
    score_book parseDaysImpl bookPdfOld DEFAULT_FORMAT_PRIORITY <
      score_book parseDaysImpl bookEpubOld DEFAULT_FORMAT_PRIORITY :=
  C4_format_dominance_amended parseDaysImpl DEFAULT_FORMAT_PRIORITY
    bookEpubOld bookPdfOld (by decide) (by decide) (by decide)

theorem processDeletes_dry (extrc : Nat → ExtOutcome) (books : Nat → BookSql)
    (ids : List Nat) (e : Nat) (trace : List Event) (dlog : List BookSql) :
    processDeletes extrc true books ids e trace dlog = (e, trace, dlog) := by
  induction ids generalizing e trace dlog with
  | nil => rfl
  | cons bid rest ih => simpa [processDeletes] using ih e trace dlog

theorem processGroups_inert (args : Args) (pd : PyStr → Option Int)
    (books : Nat → BookSql) (fp : List PyStr) (extrc : Nat → ExtOutcome)
    (prompts : Nat → PromptAnswer)
    (h : args.dry_run = true ∨ args.find_only = true) (gs : List (List Nat)) :
    ∀ (p e : Nat) (trace : List Event) (dlog : List BookSql),
      processGroups args pd books fp extrc prompts gs p e trace dlog = (trace, dlog) := by
  induction gs with
  | nil => intro p e trace dlog; rfl
  | cons g gs ih =>
    intro p e trace dlog
    by_cases hf : args.find_only = true
    · simp only [processGroups, hf, if_true]
      exact ih p e trace dlog
    · have hd : args.dry_run = true := h.resolve_right hf
      simp only [processGroups, hf, Bool.false_eq_true, if_false, hd]
      by_cases hi : args.interactive = true
      · simp only [hi, if_true]
        cases prompts p with
        | skipAns => exact ih (p + 1) e trace dlog
        | proceed =>
          dsimp only
          rw [processDeletes_dry]
          exact ih (p + 1) e trace dlog
        | noAns c =>
          cases c with
          | none => exact ih (p + 1) e trace dlog
          | some k =>
            dsimp only
            rw [processDeletes_dry]
            exact ih (p + 1) e trace dlog
      · simp only [hi, Bool.false_eq_true, if_false]
        rw [processDeletes_dry]
        exact ih p e trace dlog

/-- C1: in dry-run or find-only mode a run produces no external event at
all — no mutating `calibredb remove` invocation and no recovery-log entry —
for every set of duplicate groups, every outcome oracle (per-item errors
included) and every prompt oracle; moreover `delete_book` under dry-run
reports success without issuing the external command. -/
theorem C1_dry_run_find_only_no_mutation (args : Args) (pd : PyStr → Option Int)
    (books : Nat → BookSql) (fp : List PyStr) (extrc : Nat → ExtOutcome)
    (prompts : Nat → PromptAnswer) (groups : List (List Nat))
    (h : args.dry_run = true ∨ args.find_only = true) :
    runMain args pd books fp extrc prompts groups = [] ∧
      ∀ ext : ExtOutcome, delete_book true ext = (true, false) := by
  constructor
  · unfold runMain
    rw [processGroups_inert args pd books fp extrc prompts h groups 0 0 [] []]
    simp
  · intro ext
    rfl

theorem C1_dry_run_find_only_no_mutation_witness :
    runMain ⟨false, false, true, true⟩ (fun _ => Option.none)
        (fun i => ⟨i, [], [], Option.none, Option.none, [], Option.none⟩)
        [] (fun _ => Option.none) (fun _ => PromptAnswer.proceed) [[1, 2], [3, 4]] = [] ∧
      ∀ ext : ExtOutcome, delete_book true ext = (true, false) :=
  C1_dry_run_find_only_no_mutation ⟨false, false, true, true⟩ (fun _ => Option.none)
    (fun i => ⟨i, [], [], Option.none, Option.none, [], Option.none⟩)
    [] (fun _ => Option.none) (fun _ => PromptAnswer.proceed) [[1, 2], [3, 4]]
    (Or.inl rfl)

theorem deleteCallsSpec_append (extrc : Nat → ExtOutcome) (xs ys : List Nat) (i : Nat) :
    deleteCallsSpec extrc (xs ++ ys) i =
      deleteCallsSpec extrc xs i ++ deleteCallsSpec extrc ys (i + xs.length) := by
  induction xs generalizing i with
  | nil => simp [deleteCallsSpec]
  | cons x xs ih =>
    rw [List.cons_append]
    simp only [deleteCallsSpec, List.length_cons, List.cons_append]
    rw [ih (i + 1)]
    have h2 : i + 1 + xs.length = i + (xs.length + 1) := by omega
    rw [h2]

theorem loggedIdsSpec_append (extrc : Nat → ExtOutcome) (xs ys : List Nat) (i : Nat) :
    loggedIdsSpec extrc (xs ++ ys) i =
      loggedIdsSpec extrc xs i ++ loggedIdsSpec extrc ys (i + xs.length) := by
  induction xs generalizing i with
  | nil => simp [loggedIdsSpec]
  | cons x xs ih =>
    rw [List.cons_append]
    simp only [loggedIdsSpec, List.length_cons, List.append_assoc]
    rw [ih (i + 1)]
    have h2 : i + 1 + xs.length = i + (xs.length + 1) := by omega
    rw [h2]

theorem processDeletes_live (extrc : Nat → ExtOutcome) (books : Nat → BookSql)
    (ids : List Nat) :
    ∀ (e : Nat) (trace : List Event) (dlog : List BookSql),
      processDeletes extrc false books ids e trace dlog =
        (e + ids.length, trace ++ deleteCallsSpec extrc ids e,
          dlog ++ (loggedIdsSpec extrc ids e).map books) := by
  induction ids with
  | nil => intro e trace dlog; simp [processDeletes, deleteCallsSpec, loggedIdsSpec]
  | cons bid rest ih =>
    intro e trace dlog
    simp only [processDeletes, Bool.false_eq_true, if_false, delete_book]
    rw [ih (e + 1)]
    refine Prod.ext (by simp; omega) (Prod.ext ?_ ?_)
    · simp only [deleteCallsSpec, List.append_assoc, List.singleton_append]
    · simp only [loggedIdsSpec, List.map_append]
      cases hput : extSuccess (extrc e) with
      | true => simp
      | false => simp

theorem allDeleteIds_cons (pd : PyStr → Option Int) (books : Nat → BookSql)
    (fp : List PyStr) (g : List Nat) (gs : List (List Nat)) :
    allDeleteIds pd books fp (g :: gs) =
      (determine_keeper pd g books fp).snd ++ allDeleteIds pd books fp gs := by
  simp [allDeleteIds]

theorem processGroups_auto (args : Args) (pd : PyStr → Option Int)
    (books : Nat → BookSql) (fp : List PyStr) (extrc : Nat → ExtOutcome)
    (prompts : Nat → PromptAnswer) (hf : args.find_only = false)
    (hi : args.interactive = false) (hd : args.dry_run = false)
    (gs : List (List Nat)) :
    ∀ (p e : Nat) (trace : List Event) (dlog : List BookSql),
      processGroups args pd books fp extrc prompts gs p e trace dlog =
        (trace ++ deleteCallsSpec extrc (allDeleteIds pd books fp gs) e,
          dlog ++ (loggedIdsSpec extrc (allDeleteIds pd books fp gs) e).map books) := by
  induction gs with
  | nil =>
    intro p e trace dlog
    simp [processGroups, allDeleteIds, deleteCallsSpec, loggedIdsSpec]
  | cons g gs ih =>
    intro p e trace dlog
    simp only [processGroups, hf, hi, hd, Bool.false_eq_true, if_false]
    rw [processDeletes_live]
    dsimp only
    rw [ih p]
    rw [allDeleteIds_cons, deleteCallsSpec_append, loggedIdsSpec_append,
      List.map_append]
    simp [List.append_assoc]

/-- C2: in an auto-delete run (not find-only, not interactive, not dry-run)
the event trace is exactly: one external delete call per id of every group's
delete_ids, in order and independent of earlier outcomes (a failure does not
stop later ids or later groups), followed — strictly after every delete
call — by exactly one recovery-log entry per id whose delete call reported
success, holding that record's pre-deletion snapshot, in deletion order.
Failed ids receive no log entry. -/
theorem C2_log_exactly_on_success (args : Args) (pd : PyStr → Option Int)
    (books : Nat → BookSql) (fp : List PyStr) (extrc : Nat → ExtOutcome)
    (prompts : Nat → PromptAnswer) (groups : List (List Nat))
    (hf : args.find_only = false) (hi : args.interactive = false)
    (hd : args.dry_run = false) :
    runMain args pd books fp extrc prompts groups =
      deleteCallsSpec extrc (allDeleteIds pd books fp groups) 0 ++
        (loggedIdsSpec extrc (allDeleteIds pd books fp groups) 0).map
          (fun bid => Event.logWrite (log_deletion (books bid))) := by
  unfold runMain
  rw [processGroups_auto args pd books fp extrc prompts hf hi hd groups 0 0 [] []]
  dsimp only
  rw [List.nil_append, List.nil_append]
  by_cases hemp : (loggedIdsSpec extrc (allDeleteIds pd books fp groups) 0).map books = []
  · rw [hemp]
    simp only [ne_eq, not_true_eq_false, false_and, if_false, List.map_nil]
    have : loggedIdsSpec extrc (allDeleteIds pd books fp groups) 0 = [] :=
      List.map_eq_nil_iff.mp hemp
    rw [this]
    simp
  · simp only [ne_eq, hemp, not_false_eq_true, hd, and_true, if_true, List.map_map]
    rfl

theorem C2_log_exactly_on_success_witness :
    runMain ⟨false, false, true, false⟩ (fun _ => Option.none)
        (fun i => ⟨i, [], [], Option.none, Option.none, [], Option.none⟩)
        [] (fun n => if n = 0 then some 0 else some 1)
        (fun _ => PromptAnswer.proceed) [[1, 2], [3, 4]] =
      [Event.deleteCall 2 true, Event.deleteCall 4 false,
       Event.logWrite (log_deletion
         ⟨2, [], [], Option.none, Option.none, [], Option.none⟩)] := by
  have h := C2_log_exactly_on_success ⟨false, false, true, false⟩ (fun _ => Option.none)
    (fun i => ⟨i, [], [], Option.none, Option.none, [], Option.none⟩)
    [] (fun n => if n = 0 then some 0 else some 1)
    (fun _ => PromptAnswer.proceed) [[1, 2], [3, 4]] rfl rfl rfl
  rw [h]
  decide

theorem toNat_ofNat_valid (n : Nat) (h : n.isValidChar) : (Char.ofNat n).toNat = n := by
  rw [Char.ofNat, dif_pos h]
  rfl

/-- Lean core's `Char.toUpper`/`Char.toLower` are the ASCII case maps, so
lower-casing after upper-casing equals lower-casing. -/
theorem toLower_toUpper (c : Char) : c.toUpper.toLower = c.toLower := by
  unfold Char.toUpper Char.toLower
  by_cases h : 97 ≤ c.toNat ∧ c.toNat ≤ 122
  · have hv : (c.toNat - 32).isValidChar := Or.inl (by omega)
    rw [if_pos h]
    have ht : (Char.ofNat (c.toNat - 32)).toNat = c.toNat - 32 := toNat_ofNat_valid _ hv
    simp only [ht]
    rw [if_pos (by omega : 65 ≤ c.toNat - 32 ∧ c.toNat - 32 ≤ 90),
      if_neg (by omega : ¬ (65 ≤ c.toNat ∧ c.toNat ≤ 90))]
    have h3 : c.toNat - 32 + 32 = c.toNat := by omega
    rw [h3, Char.ofNat_toNat]
  · rw [if_neg h]

theorem mem_collapseAux {c : Char} :
    ∀ (l : List Char) (b : Bool), c ∈ collapseAux b l →
      c = ' ' ∨ (c ∈ l ∧ pyIsSpaceChar c = false) := by
  intro l
  induction l with
  | nil => intro b h; simp [collapseAux] at h
  | cons d ds ih =>
    intro b h
    by_cases hs : pyIsSpaceChar d = true
    · cases b with
      | true =>
        rw [show collapseAux true (d :: ds) = collapseAux true ds by
          simp [collapseAux, hs]] at h
        rcases ih true h with h2 | h2
        · exact Or.inl h2
        · exact Or.inr ⟨List.mem_cons_of_mem d h2.1, h2.2⟩
      | false =>
        rw [show collapseAux false (d :: ds) = ' ' :: collapseAux true ds by
          simp [collapseAux, hs]] at h
        rcases List.mem_cons.mp h with h | h
        · exact Or.inl h
        · rcases ih true h with h2 | h2
          · exact Or.inl h2
          · exact Or.inr ⟨List.mem_cons_of_mem d h2.1, h2.2⟩
    · rw [show collapseAux b (d :: ds) = d :: collapseAux false ds by
        simp [collapseAux, hs]] at h
      rw [List.mem_cons] at h
      rcases h with h | h
      · subst h
        exact Or.inr ⟨List.mem_cons_self c ds, by simpa using hs⟩
      · rcases ih false h with h2 | h2
        · exact Or.inl h2
        · exact Or.inr ⟨List.mem_cons_of_mem d h2.1, h2.2⟩

theorem collapseAux_spec (l : List Char) :
    ∀ b : Bool,
      (collapseAux b l).Chain' (fun a c => ¬(a = ' ' ∧ c = ' ')) ∧
        (b = true → (collapseAux b l).head? ≠ some ' ') := by
  induction l with
  | nil =>
    intro b
    exact ⟨List.chain'_nil, fun _ => by simp [collapseAux]⟩
  | cons d ds ih =>
    intro b
    by_cases hs : pyIsSpaceChar d = true
    · cases b with
      | true =>
        have e1 : collapseAux true (d :: ds) = collapseAux true ds := by
          simp [collapseAux, hs]
        rw [e1]
        exact ih true
      | false =>
        have e2 : collapseAux false (d :: ds) = ' ' :: collapseAux true ds := by
          simp [collapseAux, hs]
        rw [e2]
        constructor
        · refine List.chain'_cons'.mpr ⟨?_, (ih true).1⟩
          intro y hy hcon
          apply (ih true).2 rfl
          rw [← hcon.2]
          exact (Option.mem_def).mp hy
        · intro hb
          exact absurd hb (by simp)
    · have hd : d ≠ ' ' := by
        intro he
        subst he
        exact hs (by decide)
      have e3 : collapseAux b (d :: ds) = d :: collapseAux false ds := by
        simp [collapseAux, hs]
      rw [e3]
      constructor
      · refine List.chain'_cons'.mpr ⟨?_, (ih false).1⟩
        intro y _ hcon
        exact hd hcon.1
      · intro _
        simp only [List.head?_cons, ne_eq, Option.some.injEq]
        exact fun he => hd he

theorem dropWhile_head?_false {α : Type} (p : α → Bool) (l : List α) {c : α}
    (h : (l.dropWhile p).head? = some c) : p c = false := by
  induction l with
  | nil => simp [List.dropWhile] at h
  | cons d ds ih =>
    by_cases hp : p d = true
    · rw [List.dropWhile_cons_of_pos hp] at h
      exact ih h
    · rw [List.dropWhile_cons_of_neg hp] at h
      simp only [List.head?_cons, Option.some.injEq] at h
      subst h
      simpa using hp

theorem stripChars_inside (l : List Char) : stripChars l <:+: l := by
  have h1 : (l.dropWhile pyIsSpaceChar).reverse.dropWhile pyIsSpaceChar <:+
      (l.dropWhile pyIsSpaceChar).reverse := List.dropWhile_suffix _
  have h2 : stripChars l <+: l.dropWhile pyIsSpaceChar := by
    rw [stripChars]
    have := List.reverse_prefix.mpr h1
    simpa using this
  exact List.infix_iff_prefix_suffix.mpr ⟨l.dropWhile pyIsSpaceChar, h2, List.dropWhile_suffix _⟩

theorem stripChars_getLast?_false (l : List Char) {c : Char}
    (h : (stripChars l).getLast? = some c) : pyIsSpaceChar c = false := by
  rw [stripChars, List.getLast?_reverse] at h
  exact dropWhile_head?_false _ _ h

theorem stripChars_head?_false (l : List Char) {c : Char}
    (h : (stripChars l).head? = some c) : pyIsSpaceChar c = false := by
  rw [stripChars, List.head?_reverse] at h
  set Z := (l.dropWhile pyIsSpaceChar).reverse with hZ
  have hsuf : Z.dropWhile pyIsSpaceChar <:+ Z := List.dropWhile_suffix _
  obtain ⟨t, ht⟩ := hsuf
  have hne : Z.dropWhile pyIsSpaceChar ≠ [] := by
    intro he
    rw [he] at h
    simp at h
  have hget : Z.getLast? = some c := by
    rw [← ht, List.getLast?_append, h]
    rfl
  rw [hZ, List.getLast?_reverse] at hget
  exact dropWhile_head?_false _ _ hget

/-- C8 counterexample: the code's regex class `\w` keeps the underscore, so
`normalize_string` does not remove all characters that are not alphanumeric
or whitespace — the claim's own normalizer (`normalize_claimed`) disagrees
with the code on the input "a_b!". -/
theorem C8_counterexample :
    normalize_string (some "a_b!".data) = "a_b".data ∧
      normalize_claimed (some "a_b!".data) = "ab".data ∧
      normalize_string (some "a_b!".data) ≠ normalize_claimed (some "a_b!".data) :=
  ⟨by decide, by decide, by decide⟩

/-- C8 amended: `normalize_string` lower-cases, removes every character that
is not alphanumeric, an underscore, or whitespace (underscore is kept — the
regex class `\w` includes it), collapses whitespace runs to a single space,
trims the ends; it returns the empty string on null and empty input; and on
ASCII input it is insensitive to upper-casing. -/
theorem C8_normalize_amended :
    normalize_string Option.none = [] ∧
      normalize_string (some []) = [] ∧
      (∀ s : PyStr, AsciiStr s →
        normalize_string (some (s.map Char.toUpper)) = normalize_string (some s)) ∧
      (∀ (s : PyStr) (c : Char), c ∈ normalize_string (some s) →
        pyIsWordChar c = true ∨ c = ' ') ∧
      (∀ s : PyStr,
        (normalize_string (some s)).Chain' (fun a c => ¬(a = ' ' ∧ c = ' '))) ∧
      (∀ (s : PyStr) (c : Char), (normalize_string (some s)).head? = some c → c ≠ ' ') ∧
      (∀ (s : PyStr) (c : Char), (normalize_string (some s)).getLast? = some c → c ≠ ' ') := by
  refine ⟨rfl, rfl, ?_, ?_, ?_, ?_, ?_⟩
  · intro s _
    have hcomp : Char.toLower ∘ Char.toUpper = Char.toLower := by
      funext c
      exact toLower_toUpper c
    simp only [normalize_string, List.map_eq_nil_iff, List.map_map, hcomp]
  · intro s c hc
    cases s with
    | nil => simp [normalize_string] at hc
    | cons d ds =>
      simp only [normalize_string, reduceCtorEq, if_false] at hc
      have hc2 := (stripChars_inside _).sublist.subset hc
      rw [collapseWs] at hc2
      rcases mem_collapseAux _ _ hc2 with h | h
      · exact Or.inr h
      · rcases List.mem_filter.mp h.1 with ⟨_, hw⟩
        rcases Bool.or_eq_true_iff.mp hw with hw | hw
        · exact Or.inl hw
        · rw [hw] at h
          exact absurd h.2 (by simp)
  · intro s
    cases s with
    | nil => simp [normalize_string]
    | cons d ds =>
      simp only [normalize_string, reduceCtorEq, if_false]
      exact List.Chain'.infix ((collapseAux_spec _ false).1) (stripChars_inside _)
  · intro s c hc
    cases s with
    | nil => simp [normalize_string] at hc
    | cons d ds =>
      simp only [normalize_string, reduceCtorEq, if_false] at hc
      have := stripChars_head?_false _ hc
      intro he
      rw [he] at this
      simp [pyIsSpaceChar] at this
  · intro s c hc
    cases s with
    | nil => simp [normalize_string] at hc
    | cons d ds =>
      simp only [normalize_string, reduceCtorEq, if_false] at hc
      have := stripChars_getLast?_false _ hc
      intro he
      rw [he] at this
      simp [pyIsSpaceChar] at this

theorem C8_normalize_amended_witness :
    normalize_string (some ("The HOBBIT!".data.map Char.toUpper)) =
      normalize_string (some "The HOBBIT!".data) :=
  C8_normalize_amended.2.2.1 "The HOBBIT!".data (by unfold AsciiStr; decide)

theorem isBlockAt_le {a b : List Char} {i j k : Nat} (h : isBlockAt a b i j k = true) :
    i + k ≤ a.length ∧ j + k ≤ b.length := by
  rw [isBlockAt, Bool.and_eq_true, Bool.and_eq_true] at h
  exact ⟨of_decide_eq_true h.1.1, of_decide_eq_true h.1.2⟩

theorem firstBlock_le {a b : List Char} {k i j : Nat}
    (h : firstBlock a b k = some (i, j)) :
    i + k ≤ a.length ∧ j + k ≤ b.length := by
  rw [firstBlock] at h
  obtain ⟨i2, _, hi⟩ := List.exists_of_findSome?_eq_some h
  obtain ⟨j2, _, hj⟩ := List.exists_of_findSome?_eq_some hi
  by_cases hb : isBlockAt a b i2 j2 k = true
  · rw [if_pos hb] at hj
    obtain ⟨rfl, rfl⟩ := Prod.mk.injEq .. ▸ Option.some.inj hj
    exact isBlockAt_le hb
  · rw [if_neg hb] at hj
    exact absurd hj (by simp)

theorem longestMatchAux_le {a b : List Char} :
    ∀ {kk i j k : Nat}, longestMatchAux a b kk = (i, j, k) → k ≠ 0 →
      i + k ≤ a.length ∧ j + k ≤ b.length := by
  intro kk
  induction kk with
  | zero =>
    intro i j k h hk
    rw [longestMatchAux] at h
    obtain ⟨rfl, rfl, rfl⟩ := Prod.mk.injEq .. ▸ h
    exact absurd rfl hk
  | succ kk ih =>
    intro i j k h hk
    rw [longestMatchAux] at h
    cases hfb : firstBlock a b (kk + 1) with
    | some ij =>
      obtain ⟨i2, j2⟩ := ij
      rw [hfb] at h
      obtain ⟨rfl, rfl, rfl⟩ := Prod.mk.injEq .. ▸ h
      exact firstBlock_le hfb
    | none =>
      rw [hfb] at h
      exact ih h hk

theorem longestMatch_le {a b : List Char} {i j k : Nat}
    (h : longestMatch a b = (i, j, k)) (hk : k ≠ 0) :
    i + k ≤ a.length ∧ j + k ≤ b.length :=
  longestMatchAux_le h hk

theorem matchCount_le (fuel : Nat) :
    ∀ (a b : List Char), matchCount fuel a b ≤ min a.length b.length := by
  induction fuel with
  | zero => intro a b; simp [matchCount]
  | succ fuel ih =>
    intro a b
    rw [matchCount]
    cases hlm : longestMatch a b with
    | mk i jk =>
      obtain ⟨j, k⟩ := jk
      by_cases hk : k = 0
      · simp [hk]
      · simp only [hk, if_false]
        obtain ⟨ha, hb⟩ := longestMatch_le hlm hk
        have h1 := ih (a.take i) (b.take j)
        have h2 := ih (a.drop (i + k)) (b.drop (j + k))
        rw [List.length_take, List.length_take] at h1
        rw [List.length_drop, List.length_drop] at h2
        omega

theorem matchCount_nil (fuel : Nat) : matchCount fuel [] [] = 0 := by
  cases fuel with
  | zero => rfl
  | succ fuel => rfl

theorem findSome?_range_zero {β : Type} {f : Nat → Option β} {v : β} (n : Nat)
    (h : f 0 = some v) : (List.range (n + 1)).findSome? f = some v := by
  rw [List.range_succ_eq_map, List.findSome?_cons, h]

theorem longestMatch_self (a : List Char) (h : a ≠ []) :
    longestMatch a a = (0, 0, a.length) := by
  rw [longestMatch, min_self]
  cases ha : a.length with
  | zero => exact absurd (List.length_eq_zero.mp ha) h
  | succ n =>
    rw [longestMatchAux]
    have hfb : firstBlock a a (n + 1) = some (0, 0) := by
      rw [firstBlock]
      rw [ha]
      apply findSome?_range_zero
      apply findSome?_range_zero
      rw [if_pos]
      rw [isBlockAt, List.drop_zero, ← ha, List.take_length]
      simp
    rw [hfb]

theorem matchingTotal_self (a : List Char) : matchingTotal a a = a.length := by
  cases ha : a with
  | nil => rfl
  | cons c cs =>
    rw [matchingTotal, ← ha]
    have hne : a ≠ [] := by rw [ha]; simp
    have hlen : a.length + a.length = (a.length + a.length - 1) + 1 := by
      rw [ha]
      simp only [List.length_cons]
      omega
    rw [hlen, matchCount, longestMatch_self a hne]
    have hk : a.length ≠ 0 := by rw [ha]; simp
    simp only [hk, if_false]
    simp only [List.take_zero, Nat.zero_add, List.drop_length]
    rw [matchCount_nil]
    omega

/-- C9 counterexample: the ratio is not symmetric.  On "tide" vs "diet" the
matcher first locks the block "t"/"t" (least start position in the first
string), leaving one total match, while in the reversed order it locks
"d"/"d" and then still finds "e"/"e", giving two — ratios 1/4 versus 1/2,
exactly CPython's behavior. -/
theorem C9_counterexample :
    similarity "tide".data "diet".data ≠ similarity "diet".data "tide".data := by
  have h1 : matchingTotal "tide".data "diet".data = 1 := by decide
  have h2 : matchingTotal "diet".data "tide".data = 2 := by decide
  have hl1 : ("tide".data : List Char).length = 4 := by decide
  have hl2 : ("diet".data : List Char).length = 4 := by decide
  simp only [similarity, h1, h2, hl1, hl2]
  norm_num

theorem similarity_self (a : List Char) : similarity a a = 1 := by
  rw [similarity, matchingTotal_self]
  by_cases ha : a.length + a.length = 0
  · rw [if_pos ha]
  · rw [if_neg ha]
    have h0 : (a.length : ℚ) + (a.length : ℚ) ≠ 0 := by
      intro hc
      apply ha
      have := hc
      push_cast at this
      exact_mod_cast this
    rw [show (2 : ℚ) * (a.length : ℚ) = (a.length : ℚ) + (a.length : ℚ) by ring]
    exact div_self h0

theorem similarity_bounds (a b : List Char) :
    0 ≤ similarity a b ∧ similarity a b ≤ 1 := by
  rw [similarity]
  by_cases hab : a.length + b.length = 0
  · rw [if_pos hab]
    norm_num
  · rw [if_neg hab]
    have hpos : (0 : ℚ) < (a.length : ℚ) + (b.length : ℚ) := by
      have : 0 < a.length + b.length := Nat.pos_of_ne_zero hab
      exact_mod_cast this
    constructor
    · apply div_nonneg _ (le_of_lt hpos)
      positivity
    · rw [div_le_one hpos]
      have hm : matchingTotal a b ≤ min a.length b.length := matchCount_le _ a b
      have : 2 * matchingTotal a b ≤ a.length + b.length := by omega
      exact_mod_cast this

/-- C9 amended: the similarity ratio used by the fuzzy grouper is not
symmetric in general (see the counterexample); what does hold is that it is
reflexive — `sim(a, a) = 1` — and always lies in [0, 1]. -/
theorem C9_similarity_reflexive_bounded :
    (∀ a : List Char, similarity a a = 1) ∧
      (∀ a b : List Char, 0 ≤ similarity a b ∧ similarity a b ≤ 1) :=
  ⟨similarity_self, similarity_bounds⟩

theorem pairs_filter_snd {α β : Type} [DecidableEq α] (keyf : β → α) (k : α)
    (items : List β) :
    ((items.map (fun b => (keyf b, b))).filter (fun p => p.fst = k)).map Prod.snd =
      items.filter (fun b => keyf b = k) := by
  induction items with
  | nil => rfl
  | cons b bs ih =>
    by_cases h : keyf b = k <;> simp [List.filter_cons, h, ih]

theorem two_mem_le_length {α : Type} {l : List α} {x y : α} (hx : x ∈ l)
    (hy : y ∈ l) (hne : x ≠ y) : 2 ≤ l.length := by
  match l with
  | [] => simp at hx
  | [a] =>
    rw [List.mem_singleton] at hx hy
    exact absurd (hx.trans hy.symm) hne
  | a :: b :: t => simp [List.length_cons]

/-- Soundness of the exact grouper: a returned group is exactly the books
whose key equals the group key, and it has at least two members. -/
theorem exact_group_sound (books : List BookDict) (fields : List PyStr)
    {k : List KeyPart} {g : List BookDict}
    (h : (k, g) ∈ find_exact_duplicates books fields) :
    g = books.filter (fun b => keyOf b fields = k) ∧ 1 < g.length := by
  rw [find_exact_duplicates] at h
  rcases List.mem_filter.mp h with ⟨hmem, hlen⟩
  have hnd := bucketsOfPairs_keysNodup (books.map (fun b => (keyOf b fields, b)))
  have := mem_bucket_eq_lookup hnd hmem
  rw [bucketLookup_bucketsOfPairs, pairs_filter_snd] at this
  exact ⟨this.symm, of_decide_eq_true hlen⟩

/-- Completeness of the exact grouper: when at least two books share key `k`,
the group for `k` is returned. -/
theorem exact_group_complete (books : List BookDict) (fields : List PyStr)
    (k : List KeyPart)
    (hlen : 1 < (books.filter (fun b => keyOf b fields = k)).length) :
    (k, books.filter (fun b => keyOf b fields = k)) ∈
      find_exact_duplicates books fields := by
  have hlk : bucketLookup k (bucketsOfPairs (books.map (fun b => (keyOf b fields, b)))) =
      books.filter (fun b => keyOf b fields = k) := by
    rw [bucketLookup_bucketsOfPairs, pairs_filter_snd]
  have hne : bucketLookup k (bucketsOfPairs (books.map (fun b => (keyOf b fields, b)))) ≠ [] := by
    rw [hlk]
    intro he
    rw [he] at hlen
    simp at hlen
  have hmem := lookup_mem_buckets hne
  rw [hlk] at hmem
  rw [find_exact_duplicates]
  exact List.mem_filter.mpr ⟨hmem, decide_eq_true hlen⟩

theorem exact_same_key_same_group (books : List BookDict) (fields : List PyStr)
    {r1 r2 : BookDict} (hm1 : r1 ∈ books) (hm2 : r2 ∈ books) (hne : r1 ≠ r2)
    (hk : keyOf r1 fields = keyOf r2 fields) :
    ∃ k g, (k, g) ∈ find_exact_duplicates books fields ∧ r1 ∈ g ∧ r2 ∈ g := by
  set k := keyOf r1 fields with hkdef
  set g := books.filter (fun b => keyOf b fields = k) with hgdef
  have hr1 : r1 ∈ g := List.mem_filter.mpr ⟨hm1, by simp [hkdef]⟩
  have hr2 : r2 ∈ g := List.mem_filter.mpr ⟨hm2, by simp [hkdef, hk.symm]⟩
  have hlen : 1 < g.length := two_mem_le_length hr1 hr2 hne
  exact ⟨k, g, exact_group_complete books fields k hlen, hr1, hr2⟩

theorem map_eq_map_mem {α β : Type} {f g : α → β} :
    ∀ (l : List α), l.map f = l.map g → ∀ x ∈ l, f x = g x := by
  intro l
  induction l with
  | nil => intro _ x hx; simp at hx
  | cons a as ih =>
    intro h x hx
    rw [List.map_cons, List.map_cons, List.cons_eq_cons] at h
    rcases List.mem_cons.mp hx with rfl | hx
    · exact h.1
    · exact ih h.2 x hx

/-- C5: the exact grouper keys each record by the tuple of its normalized
fields (list-valued fields are element-wise normalized and sorted, so element
order never matters); any two distinct records of the input with identical
key tuples land in a common returned group; all members of a returned group
share its key tuple; and every returned group has at least two members. -/
theorem C5_exact_grouper (books : List BookDict) (fields : List PyStr) :
    (∀ (k : List KeyPart) (g : List BookDict),
      (k, g) ∈ find_exact_duplicates books fields →
        2 ≤ g.length ∧ ∀ r ∈ g, keyOf r fields = k) ∧
      (∀ r1 r2 : BookDict, r1 ∈ books → r2 ∈ books → r1 ≠ r2 →
        keyOf r1 fields = keyOf r2 fields →
        ∃ k g, (k, g) ∈ find_exact_duplicates books fields ∧ r1 ∈ g ∧ r2 ∈ g) ∧
      (∀ (f : PyStr) (b1 b2 : BookDict) (l1 l2 : List PyStr),
        dictGet b1 f = some (FieldVal.list l1) →
        dictGet b2 f = some (FieldVal.list l2) → l1.Perm l2 →
        keyPartOf b1 f = keyPartOf b2 f) := by
  refine ⟨?_, ?_, ?_⟩
  · intro k g h
    obtain ⟨hg, hlen⟩ := exact_group_sound books fields h
    refine ⟨hlen, ?_⟩
    intro r hr
    rw [hg] at hr
    have := (List.mem_filter.mp hr).2
    exact of_decide_eq_true this
  · intro r1 r2 hm1 hm2 hne hk
    exact exact_same_key_same_group books fields hm1 hm2 hne hk
  · intro f b1 b2 l1 l2 h1 h2 hperm
    simp only [keyPartOf, h1, h2]
    have : (l1.map (fun v => normalize_string (some v))).Perm
        (l2.map (fun v => normalize_string (some v))) := hperm.map _
    rw [sortStrs_perm_invariant this]

theorem C5_exact_grouper_witness :
    ∃ k g, (k, g) ∈ find_exact_duplicates [bookHobbitA, bookHobbitB]
        [titleField, authorsField] ∧ bookHobbitA ∈ g ∧ bookHobbitB ∈ g :=
  (C5_exact_grouper [bookHobbitA, bookHobbitB] [titleField, authorsField]).2.1
    bookHobbitA bookHobbitB (by decide) (by decide) (by decide) (by decide)

/-- C10: a record lacking a named field contributes the distinguished null
placeholder to its key — not the empty string — so two records both lacking
the field and agreeing on the remaining normalized components are grouped as
exact duplicates, while a record lacking the field never shares a group with
a record whose present field value normalizes to the empty string. -/
theorem C10_missing_field_null_placeholder (books : List BookDict)
    (fields : List PyStr) (f : PyStr) (r1 r2 : BookDict) (hf : f ∈ fields)
    (h1 : dictGet r1 f = Option.none) :
    (keyPartOf r1 f = KeyPart.null) ∧
      (dictGet r2 f = Option.none →
        (∀ f2 ∈ fields, f2 ≠ f → keyPartOf r1 f2 = keyPartOf r2 f2) →
        r1 ∈ books → r2 ∈ books → r1 ≠ r2 →
        ∃ k g, (k, g) ∈ find_exact_duplicates books fields ∧ r1 ∈ g ∧ r2 ∈ g) ∧
      (∀ s : PyStr, dictGet r2 f = some (FieldVal.str s) →
        normalize_string (some s) = [] →
        ∀ (k : List KeyPart) (g : List BookDict),
          (k, g) ∈ find_exact_duplicates books fields → ¬(r1 ∈ g ∧ r2 ∈ g)) := by
  refine ⟨by rw [keyPartOf, h1], ?_, ?_⟩
  · intro h2 hrest hm1 hm2 hne
    have hk : keyOf r1 fields = keyOf r2 fields := by
      rw [keyOf, keyOf]
      apply List.map_congr_left
      intro f2 hf2
      by_cases hfe : f2 = f
      · subst hfe
        simp only [keyPartOf, h1, h2]
      · exact hrest f2 hf2 hfe
    exact exact_same_key_same_group books fields hm1 hm2 hne hk
  · intro s h2 hsnorm k g hg hmem
    obtain ⟨hgeq, _⟩ := exact_group_sound books fields hg
    have hk1 : keyOf r1 fields = k := by
      have := (List.mem_filter.mp (hgeq ▸ hmem.1)).2
      exact of_decide_eq_true this
    have hk2 : keyOf r2 fields = k := by
      have := (List.mem_filter.mp (hgeq ▸ hmem.2)).2
      exact of_decide_eq_true this
    have hpt : keyPartOf r1 f = keyPartOf r2 f :=
      map_eq_map_mem fields (hk1.trans hk2.symm) f hf
    simp only [keyPartOf, h1, h2, hsnorm] at hpt
    exact KeyPart.noConfusion hpt

theorem C10_missing_field_null_placeholder_witness :
    ∃ k g,
      (k, g) ∈ find_exact_duplicates [bookNoAuthors1, bookNoAuthors2, bookEmptyStrAuthors]
          [titleField, authorsField] ∧ bookNoAuthors1 ∈ g ∧ bookNoAuthors2 ∈ g :=
  ((C10_missing_field_null_placeholder
      [bookNoAuthors1, bookNoAuthors2, bookEmptyStrAuthors]
      [titleField, authorsField] authorsField bookNoAuthors1 bookNoAuthors2
      (by decide) (by decide)).2.1) (by decide) (by decide) (by decide) (by decide)
    (by decide)

theorem inner_foldl_eq (abooks : List BookDict) (t : ℚ) :
    ∀ (l : List (Nat × BookDict)) (acc : List (List BookDict)),
      l.foldl (fun acc2 ib =>
        let group := ib.snd :: similarMatches abooks ib.fst ib.snd t
        if 1 < group.length then acc2 ++ [group] else acc2) acc =
      acc ++ l.filterMap (fun ib =>
        let group := ib.snd :: similarMatches abooks ib.fst ib.snd t
        if 1 < group.length then some group else Option.none) := by
  intro l
  induction l with
  | nil => intro acc; simp
  | cons x xs ih =>
    intro acc
    rw [List.foldl_cons, List.filterMap_cons]
    dsimp only
    by_cases hp : 1 < (x.snd :: similarMatches abooks x.fst x.snd t).length
    · rw [if_pos hp, if_pos hp, ih]
      simp
    · rw [if_neg hp, if_neg hp, ih]

theorem outer_foldl_eq (t : ℚ) :
    ∀ (bs : List (AuthorKey × List BookDict)) (acc : List (List BookDict)),
      bs.foldl (fun acc kb =>
        if kb.snd.length < 2 then acc
        else
          kb.snd.enum.foldl (fun acc2 ib =>
            let group := ib.snd :: similarMatches kb.snd ib.fst ib.snd t
            if 1 < group.length then acc2 ++ [group] else acc2) acc) acc =
      acc ++ bs.flatMap (fun kb =>
        if kb.snd.length < 2 then [] else bucketAnchorGroups kb.snd t) := by
  intro bs
  induction bs with
  | nil => intro acc; simp
  | cons kb bs ih =>
    intro acc
    rw [List.foldl_cons, List.flatMap_cons]
    by_cases hl : kb.snd.length < 2
    · rw [if_pos hl, if_pos hl, ih]
      simp
    · rw [if_neg hl, if_neg hl, ih, inner_foldl_eq]
      rw [bucketAnchorGroups, List.append_assoc]

/-- The fuzzy grouper, rewritten as the per-bucket anchor-group emission. -/
theorem find_similar_titles_eq (books : List BookDict) (t : ℚ) :
    find_similar_titles books t =
      (authorBuckets books).flatMap (fun kb =>
        if kb.snd.length < 2 then [] else bucketAnchorGroups kb.snd t) := by
  rw [find_similar_titles, outer_foldl_eq]
  simp

theorem find_similar_titles_claimed_eq (books : List BookDict) (t : ℚ) :
    find_similar_titles_claimed books t =
      (bucketsOfPairs (books.map (fun b => (claimedAuthorKey b, b)))).flatMap
        (fun kb => if kb.snd.length < 2 then [] else bucketAnchorGroups kb.snd t) := by
  rw [find_similar_titles_claimed, outer_foldl_eq]
  simp

/-- C6 amended: the fuzzy grouper first buckets records by the SORTED RAW
author tuple — author names are not normalized before bucketing (that is the
amendment; everything else is as claimed): within each bucket of at least 2
records, for every ordered pair (i, j), i ≠ j, it computes the
sequence-matcher ratio on the normalized titles, skips pairs where either
normalized title is empty, adds j to the group anchored at i when the ratio
is at least the threshold, and emits exactly the anchor groups with at least
2 members. -/
theorem C6_fuzzy_grouper_amended (books : List BookDict) (t : ℚ) :
    (∀ k : AuthorKey, bucketLookup k (authorBuckets books) =
        books.filter (fun b => authorKeyOf b = k)) ∧
      (find_similar_titles books t =
        (authorBuckets books).flatMap (fun kb =>
          if kb.snd.length < 2 then [] else bucketAnchorGroups kb.snd t)) ∧
      (∀ g : List BookDict, g ∈ find_similar_titles books t ↔
        ∃ kb ∈ authorBuckets books, ¬kb.snd.length < 2 ∧
          g ∈ bucketAnchorGroups kb.snd t) ∧
      (∀ (abooks : List BookDict) (g : List BookDict),
        g ∈ bucketAnchorGroups abooks t ↔
          ∃ i b1, (i, b1) ∈ abooks.enum ∧
            g = b1 :: similarMatches abooks i b1 t ∧ 1 < g.length) := by
  refine ⟨?_, find_similar_titles_eq books t, ?_, ?_⟩
  · intro k
    rw [authorBuckets, bucketLookup_bucketsOfPairs, pairs_filter_snd]
  · intro g
    rw [find_similar_titles_eq, List.mem_flatMap]
    constructor
    · rintro ⟨kb, hkb, hg⟩
      by_cases hl : kb.snd.length < 2
      · rw [if_pos hl] at hg
        simp at hg
      · rw [if_neg hl] at hg
        exact ⟨kb, hkb, hl, hg⟩
    · rintro ⟨kb, hkb, hl, hg⟩
      exact ⟨kb, hkb, by rw [if_neg hl]; exact hg⟩
  · intro abooks g
    rw [bucketAnchorGroups, List.mem_filterMap]
    constructor
    · rintro ⟨⟨i, b1⟩, hmem, hf⟩
      dsimp only at hf
      by_cases hp : 1 < (b1 :: similarMatches abooks i b1 t).length
      · rw [if_pos hp] at hf
        obtain rfl := Option.some.inj hf
        exact ⟨i, b1, hmem, rfl, hp⟩
      · rw [if_neg hp] at hf
        exact absurd hf (by simp)
    · rintro ⟨i, b1, hmem, rfl, hp⟩
      refine ⟨(i, b1), hmem, ?_⟩
      dsimp only
      rw [if_pos hp]

theorem similarMatches_tolkien :
    similarMatches [bookTolkienCap, bookTolkienLow] 0 bookTolkienCap (17 / 20 : ℚ) =
      [bookTolkienLow] := by
  have hnt1 : normTitle bookTolkienCap = "the hobbit".data := by decide
  have hnt2 : normTitle bookTolkienLow = "the hobbit".data := by decide
  rw [similarMatches,
    show ([bookTolkienCap, bookTolkienLow]).enum =
      [(0, bookTolkienCap), (1, bookTolkienLow)] from by decide]
  rw [List.filterMap_cons, List.filterMap_cons, List.filterMap_nil]
  dsimp only
  rw [if_pos rfl, if_neg (by decide : ¬(1 : Nat) = 0),
    if_neg (by rw [hnt1, hnt2]; decide), hnt1, hnt2, similarity_self,
    if_pos (by norm_num : (17 / 20 : ℚ) ≤ 1)]

/-- C6 counterexample: two records whose author lists normalize to the same
set ("Tolkien" vs "tolkien") and whose normalized titles coincide.  The claim
says they are compared and grouped; the code buckets by the raw sorted author
tuple, so they never meet and no group is emitted, while the claim's own
normalized-author bucketing does produce a group. -/
theorem C6_counterexample :
    find_similar_titles [bookTolkienCap, bookTolkienLow] (17 / 20 : ℚ) = [] ∧
      find_similar_titles_claimed [bookTolkienCap, bookTolkienLow] (17 / 20 : ℚ) ≠ [] := by
  constructor
  · decide
  · have hgrp : [bookTolkienCap, bookTolkienLow] ∈
        bucketAnchorGroups [bookTolkienCap, bookTolkienLow] (17 / 20 : ℚ) := by
      rw [bucketAnchorGroups,
        show ([bookTolkienCap, bookTolkienLow]).enum =
          [(0, bookTolkienCap), (1, bookTolkienLow)] from by decide]
      rw [List.filterMap_cons]
      dsimp only
      rw [similarMatches_tolkien]
      rw [if_pos (by decide : 1 < ([bookTolkienCap, bookTolkienLow] : List BookDict).length)]
      exact List.mem_cons_self _ _
    apply List.ne_nil_of_mem
    show [bookTolkienCap, bookTolkienLow] ∈ _
    rw [find_similar_titles_claimed_eq, List.mem_flatMap]
    refine ⟨(AuthorKey.strs ["tolkien".data], [bookTolkienCap, bookTolkienLow]), ?_, ?_⟩
    · rw [show bucketsOfPairs ([bookTolkienCap, bookTolkienLow].map
          (fun b => (claimedAuthorKey b, b))) =
        [(AuthorKey.strs ["tolkien".data], [bookTolkienCap, bookTolkienLow])] from by decide]
      exact List.mem_cons_self _ _
    · rw [if_neg (by decide : ¬([bookTolkienCap, bookTolkienLow] : List BookDict).length < 2)]
      exact hgrp

/-- C7 counterexample: a single record carrying the same ISBN both as its
direct `isbn` field and inside its `identifiers` mapping is appended twice to
the same bucket, so the identifier grouper returns a "duplicate group" whose
two entries are one and the same record — not 2 distinct record ids. -/
theorem C7_counterexample :
    find_isbn_duplicates [bookDoubleIsbn] =
        [("123".data, [bookDoubleIsbn, bookDoubleIsbn])] ∧
      [bookDoubleIsbn, bookDoubleIsbn].dedup.length = 1 ∧
      ¬ 2 ≤ [bookDoubleIsbn, bookDoubleIsbn].dedup.length :=
  ⟨by decide, by decide, by decide⟩

theorem filterMap_snd_sublist {α β : Type} (f : α → Option β) (v : α → β)
    (hf : ∀ x y, f x = some y → y = v x) :
    ∀ l : List α, (l.filterMap f).Sublist (l.map v) := by
  intro l
  induction l with
  | nil => simp
  | cons x xs ih =>
    rw [List.filterMap_cons, List.map_cons]
    cases hfx : f x with
    | none => exact ih.cons (v x)
    | some y =>
      rw [hf x y hfx]
      exact ih.cons₂ (v x)

theorem similarMatches_f_shape (i : Nat) (b1 : BookDict) (t : ℚ)
    (x : Nat × BookDict) (y : BookDict)
    (h : (if x.fst = i then Option.none
          else if normTitle b1 = [] ∨ normTitle x.snd = [] then Option.none
          else if t ≤ similarity (normTitle b1) (normTitle x.snd) then some x.snd
          else Option.none) = some y) : y = x.snd := by
  split at h
  · exact absurd h (by simp)
  · split at h
    · exact absurd h (by simp)
    · split at h
      · exact (Option.some.inj h).symm
      · exact absurd h (by simp)

theorem similarMatches_sublist (abooks : List BookDict) (i : Nat) (b1 : BookDict)
    (t : ℚ) : (similarMatches abooks i b1 t).Sublist abooks := by
  rw [similarMatches]
  have h := filterMap_snd_sublist _ Prod.snd
    (fun x y hx => similarMatches_f_shape i b1 t x y hx) abooks.enum
  rwa [List.enum_map_snd] at h

theorem similarMatches_not_self (abooks : List BookDict) (i : Nat) (b1 : BookDict)
    (t : ℚ) (hnd : abooks.Nodup) (hib : (i, b1) ∈ abooks.enum) :
    b1 ∉ similarMatches abooks i b1 t := by
  intro hmem
  rw [similarMatches, List.mem_filterMap] at hmem
  obtain ⟨⟨j, b2⟩, hjmem, hf⟩ := hmem
  have hji : ¬ (j = i) := by
    intro he
    rw [if_pos he] at hf
    exact absurd hf (by simp)
  have hb2 : b2 = b1 := by
    have := similarMatches_f_shape i b1 t (j, b2) b1 hf
    exact this.symm
  obtain ⟨hj, hbj⟩ := List.mem_enum hjmem
  obtain ⟨hi, hbi⟩ := List.mem_enum hib
  apply hji
  have hget : abooks.get ⟨j, hj⟩ = abooks.get ⟨i, hi⟩ := by
    rw [List.get_eq_getElem, List.get_eq_getElem, ← hbj, ← hbi, hb2]
  have := (List.Nodup.get_inj_iff hnd).mp hget
  exact congrArg Fin.val this

theorem author_bucket_eq_filter (books : List BookDict) {k : AuthorKey}
    {abooks : List BookDict} (h : (k, abooks) ∈ authorBuckets books) :
    abooks = books.filter (fun b => authorKeyOf b = k) := by
  have hnd := bucketsOfPairs_keysNodup (books.map (fun b => (authorKeyOf b, b)))
  have := mem_bucket_eq_lookup hnd h
  rw [bucketLookup_bucketsOfPairs, pairs_filter_snd] at this
  exact this.symm

/-- C7 amended: every group the exact and fuzzy groupers return has at least
2 members, and — when the input records are pairwise distinct — its members
are pairwise distinct records, hence at least 2 distinct record ids.  An
identifier bucket is only guaranteed to hold at least 2 entries: a single
record reached through two qualifying identifier paths can fill a bucket by
itself (see the counterexample). -/
theorem C7_min_two_members_amended (books : List BookDict) (fields : List PyStr)
    (t : ℚ) (hnd : books.Nodup) :
    (∀ (k : List KeyPart) (g : List BookDict),
      (k, g) ∈ find_exact_duplicates books fields → 2 ≤ g.length ∧ g.Nodup) ∧
      (∀ g : List BookDict, g ∈ find_similar_titles books t →
        2 ≤ g.length ∧ g.Nodup) ∧
      (∀ (k : PyStr) (g : List BookDict),
        (k, g) ∈ find_isbn_duplicates books → 2 ≤ g.length) := by
  refine ⟨?_, ?_, ?_⟩
  · intro k g h
    obtain ⟨hg, hlen⟩ := exact_group_sound books fields h
    exact ⟨hlen, hg ▸ List.Nodup.filter _ hnd⟩
  · intro g hg
    rw [find_similar_titles_eq, List.mem_flatMap] at hg
    obtain ⟨kb, hkb, hgin⟩ := hg
    by_cases hl : kb.snd.length < 2
    · rw [if_pos hl] at hgin
      simp at hgin
    · rw [if_neg hl] at hgin
      obtain ⟨k2, abooks⟩ := kb
      have habn : abooks.Nodup := by
        rw [author_bucket_eq_filter books hkb]
        exact List.Nodup.filter _ hnd
      rw [bucketAnchorGroups, List.mem_filterMap] at hgin
      obtain ⟨⟨i, b1⟩, hmem, hf⟩ := hgin
      dsimp only at hf
      by_cases hp : 1 < (b1 :: similarMatches abooks i b1 t).length
      · rw [if_pos hp] at hf
        obtain rfl := Option.some.inj hf
        refine ⟨hp, ?_⟩
        rw [List.nodup_cons]
        exact ⟨similarMatches_not_self abooks i b1 t habn hmem,
          (similarMatches_sublist abooks i b1 t).nodup habn⟩
      · rw [if_neg hp] at hf
        exact absurd hf (by simp)
  · intro k g h
    rw [find_isbn_duplicates] at h
    have := (List.mem_filter.mp h).2
    exact of_decide_eq_true this

theorem C7_min_two_members_amended_witness :
    2 ≤ ([bookDoubleIsbn, bookDoubleIsbn] : List BookDict).length :=
  (C7_min_two_members_amended [bookDoubleIsbn] [titleField, authorsField] 1
      (by decide)).2.2 "123".data [bookDoubleIsbn, bookDoubleIsbn] (by decide)
